import Mathlib

/-
Shallow embedding of the cell-automaton sandbox (src/cellAuto.go).

Machine floats (Go float64) are modelled as exact rationals; Go ints as ℤ.
The Go map `map[[2]int]bool` only ever stores `true`, so it is modelled as
the finite set of its keys.  Randomness (`rand.Intn(3)-1` per axis, drawn
once per agent per step) is modelled by an explicit delta stream
`rnd : Nat → Int × Int` indexed by the agent's position in the list.
-/

namespace CellAuto

def cellSize : Int := 10

def worldWidth : Int := 4000

def worldHeight : Int := 4000

def zoomStep : ℚ := 21/20

def minZoom : ℚ := 1/4

def maxZoom : ℚ := 5

def minSpeed : ℚ := 1/10

def maxSpeed : ℚ := 10

def speedStep : ℚ := 1/10

/-- Go `LifeType` (string constants "life" / "zombie"). -/
inductive LifeType where
  | Life : LifeType
  | Zombie : LifeType
deriving DecidableEq, Repr

export LifeType (Life Zombie)

/-- Go `Cell` struct; the Go field `Type` is rendered `ty` (`Type` is reserved). -/
structure Cell where
  X : Int
  Y : Int
  ty : LifeType
deriving DecidableEq, Repr

/-- Go `Game` struct (render-only fields kept as plain data). -/
structure Game where
  cells : List Cell
  zoom : ℚ
  cameraX : ℚ
  cameraY : ℚ
  fullscreen : Bool
  prevF11Down : Bool
  gameSpeed : ℚ
  speedCounter : ℚ
  occupied : Finset (Int × Int)
  placeType : LifeType
  showUI : Bool
deriving DecidableEq

/-- Go `NewGame` (unset fields take Go zero values). -/
def NewGame : Game where
  cells := []
  zoom := 1
  cameraX := (worldWidth : ℚ) / 2
  cameraY := (worldHeight : ℚ) / 2
  fullscreen := false
  prevF11Down := false
  gameSpeed := 1
  speedCounter := 0
  occupied := ∅
  placeType := Life
  showUI := true

/-- Go `(*Game).screenToWorld`. -/
def screenToWorld (g : Game) (screenX screenY screenW screenH : ℚ) : ℚ × ℚ :=
  ((screenX - screenW / 2) / g.zoom + g.cameraX,
   (screenY - screenH / 2) / g.zoom + g.cameraY)

/-- The world-to-screen transform used by the renderer (Go `(*Game).Draw`). -/
def worldToScreen (g : Game) (wx wy screenW screenH : ℚ) : ℚ × ℚ :=
  ((wx - g.cameraX) * g.zoom + screenW / 2,
   (wy - g.cameraY) * g.zoom + screenH / 2)

/-- Go `(*Game).clampCamera`. -/
def clampCamera (g : Game) (screenW screenH : ℚ) : Game :=
  let halfW := screenW / 2 / g.zoom
  let halfH := screenH / 2 / g.zoom
  let minX := halfW
  let minY := halfH
  let maxX0 := (worldWidth : ℚ) - halfW
  let maxY0 := (worldHeight : ℚ) - halfH
  let maxX := if maxX0 < minX then minX else maxX0
  let maxY := if maxY0 < minY then minY else maxY0
  { g with
    cameraX := max minX (min g.cameraX maxX)
    cameraY := max minY (min g.cameraY maxY) }

/-- The zoom portion of Go `(*Game).Update` (Q / E keys, wheel, clamp). -/
def zoomUpdate (keyQ keyE : Bool) (scrollY : ℚ) (z : ℚ) : ℚ :=
  let z1 := if keyQ then z * zoomStep else z
  let z2 := if keyE then z1 / zoomStep else z1
  let z3 := if 0 < scrollY then z2 * zoomStep
            else if scrollY < 0 then z2 / zoomStep else z2
  max minZoom (min z3 maxZoom)

/-- The anchored-zoom portion of Go `(*Game).Update`: capture the world point
under the pointer, update the zoom, recapture, shift the camera by the
difference. -/
def applyZoomAnchored (keyQ keyE : Bool) (scrollY mx my screenW screenH : ℚ)
    (g : Game) : Game :=
  let before := screenToWorld g mx my screenW screenH
  let g1 := { g with zoom := zoomUpdate keyQ keyE scrollY g.zoom }
  let after := screenToWorld g1 mx my screenW screenH
  { g1 with
    cameraX := g1.cameraX + (before.1 - after.1)
    cameraY := g1.cameraY + (before.2 - after.2) }

/-- The bounds test of Go `logicUpdate`
(`nx < 0 || ny < 0 || nx*cellSize >= worldWidth || ny*cellSize >= worldHeight`). -/
def outOfBounds (nx ny : Int) : Bool :=
  decide (nx < 0) || decide (ny < 0) ||
  decide (worldWidth ≤ nx * cellSize) || decide (worldHeight ≤ ny * cellSize)

/-- The candidate-position computation of Go `logicUpdate`: step by the sampled
delta, but an out-of-bounds candidate is replaced by the current position. -/
def moveTarget (c : Cell) (d : Int × Int) : Int × Int :=
  let nx0 := c.X + d.1
  let ny0 := c.Y + d.2
  if outOfBounds nx0 ny0 then (c.X, c.Y) else (nx0, ny0)

/-- The per-agent pass of Go `logicUpdate`: `claimed` is the `newPositions`
map built so far, `i` indexes into the delta stream.  Returns the new cell
list together with the final `newPositions` set. -/
def logicPass (rnd : Nat → Int × Int) :
    Nat → Finset (Int × Int) → List Cell → List Cell × Finset (Int × Int)
  | _, claimed, [] => ([], claimed)
  | i, claimed, cell :: rest =>
    let newPos := moveTarget cell (rnd i)
    let origPos : Int × Int := (cell.X, cell.Y)
    if newPos ∉ claimed then
      let r := logicPass rnd (i + 1) (insert newPos claimed) rest
      (⟨newPos.1, newPos.2, cell.ty⟩ :: r.1, r.2)
    else if origPos ∉ claimed then
      let r := logicPass rnd (i + 1) (insert origPos claimed) rest
      (cell :: r.1, r.2)
    else
      let r := logicPass rnd (i + 1) (insert origPos claimed) rest
      (cell :: r.1, r.2)

/-- Go `(*Game).logicUpdate`: one simulation step, replacing the population
and the occupancy index atomically. -/
def logicUpdate (rnd : Nat → Int × Int) (g : Game) : Game :=
  let r := logicPass rnd 0 ∅ g.cells
  { g with cells := r.1, occupied := r.2 }

/-- Go `int(x)` on a float64: truncation toward zero. -/
def qtrunc (q : ℚ) : Int := if q < 0 then ⌈q⌉ else ⌊q⌋

/-- The grid cell targeted by a mouse click in Go `(*Game).Update`
(`cx := int(wx) / cellSize`, Go division truncates toward zero). -/
def targetCell (mx my screenW screenH : ℚ) (g : Game) : Int × Int :=
  let w := screenToWorld g mx my screenW screenH
  (Int.tdiv (qtrunc w.1) cellSize, Int.tdiv (qtrunc w.2) cellSize)

/-- The mouse-placement block of Go `(*Game).Update` (lines 164-173). -/
def placeCell (mx my screenW screenH : ℚ) (g : Game) : Game :=
  let pos := targetCell mx my screenW screenH g
  if pos ∉ g.occupied ∧ 0 ≤ pos.1 ∧ 0 ≤ pos.2 ∧
      pos.1 * cellSize < worldWidth ∧ pos.2 * cellSize < worldHeight then
    { g with
      occupied := insert pos g.occupied
      cells := g.cells ++ [⟨pos.1, pos.2, g.placeType⟩] }
  else g

/-- The speed-accumulator block of Go `(*Game).Update` (lines 175-182),
abstracted over the counter and the speed: returns how many simulation
steps run this tick and the residual counter. -/
def speedTick (c s : ℚ) : Nat × ℚ :=
  let c1 := c + s
  if 1 ≤ c1 then
    let updates := (⌊c1⌋).toNat
    (updates, c1 - (updates : ℚ))
  else (0, c1)

/-- Modelled from the spec (§4.4): the reference speed loop
"while speedCounter ≥ 1.0, run one Simulation Step and decrement counter
by 1"; returns the number of steps run and the residual counter. -/
def specSpeedLoop (q : ℚ) : Nat × ℚ :=
  if h : 1 ≤ q then
    let r := specSpeedLoop (q - 1)
    (r.1 + 1, r.2)
  else (0, q)
termination_by (⌈q⌉).toNat
decreasing_by
  have h1 : (1 : Int) ≤ ⌈q⌉ := by
    rw [Int.le_ceil_iff]
    norm_num
    linarith
  have h2 : ⌈q - 1⌉ = ⌈q⌉ - 1 := by
    rw [show (1 : ℚ) = ((1 : Int) : ℚ) by norm_num, Int.ceil_sub_int]
  omega

/-- The states reachable by the core: the initial state, then any sequence of
user placements and simulation steps. -/
inductive Reachable : Game → Prop where
  | init : Reachable NewGame
  | place (mx my screenW screenH : ℚ) {g : Game} :
      Reachable g → Reachable (placeCell mx my screenW screenH g)
  | step (rnd : Nat → Int × Int) {g : Game} :
      Reachable g → Reachable (logicUpdate rnd g)

/-- A pass of `logicUpdate` in which no agent ever reaches the final
double-claim fallback branch (for each agent, its candidate or its current
position was still unclaimed when it was processed). -/
def cleanPass (rnd : Nat → Int × Int) : Nat → Finset (Int × Int) → List Cell → Bool
  | _, _, [] => true
  | i, claimed, cell :: rest =>
    let newPos := moveTarget cell (rnd i)
    let origPos : Int × Int := (cell.X, cell.Y)
    if newPos ∉ claimed then cleanPass rnd (i + 1) (insert newPos claimed) rest
    else if origPos ∉ claimed then cleanPass rnd (i + 1) (insert origPos claimed) rest
    else false

end CellAuto

namespace CellAuto

/-- Helper: a clean pass produces pairwise-distinct positions, all of them
outside the initially claimed set. -/
lemma logicPass_clean (rnd : Nat → Int × Int) (cells : List Cell) :
    ∀ (i : Nat) (claimed : Finset (Int × Int)),
      cleanPass rnd i claimed cells = true →
      (((logicPass rnd i claimed cells).1.map fun c => (c.X, c.Y)).Nodup ∧
       ∀ p ∈ (logicPass rnd i claimed cells).1.map (fun c => (c.X, c.Y)), p ∉ claimed) := by
  induction cells with
  | nil => intro i claimed _; simp [logicPass]
  | cons cell rest ih =>
    intro i claimed hclean
    simp only [logicPass, cleanPass] at hclean ⊢
    split_ifs at hclean ⊢ with h1 h2
    · obtain ⟨hnd, hfresh⟩ := ih (i+1) _ hclean
      refine ⟨?_, ?_⟩
      · simp only [List.map_cons, List.nodup_cons]
        refine ⟨fun hmem => ?_, hnd⟩
        exact hfresh _ hmem (Finset.mem_insert_self _ _)
      · intro p hp
        simp only [List.map_cons, List.mem_cons] at hp
        rcases hp with rfl | hp
        · exact h2
        · exact fun hc => hfresh _ hp (Finset.mem_insert_of_mem hc)
    · obtain ⟨hnd, hfresh⟩ := ih (i+1) _ hclean
      refine ⟨?_, ?_⟩
      · simp only [List.map_cons, List.nodup_cons]
        refine ⟨fun hmem => ?_, hnd⟩
        simp only [Prod.mk.eta] at hmem
        exact hfresh _ hmem (Finset.mem_insert_self _ _)
      · intro p hp
        simp only [List.map_cons, List.mem_cons] at hp
        rcases hp with rfl | hp
        · simpa using h1
        · exact fun hc => hfresh _ hp (Finset.mem_insert_of_mem hc)

/-- Helper: one pass keeps the length and the per-index category tags. -/
lemma logicPass_length_ty (rnd : Nat → Int × Int) (cells : List Cell) :
    ∀ (i : Nat) (claimed : Finset (Int × Int)),
      (logicPass rnd i claimed cells).1.length = cells.length ∧
      (logicPass rnd i claimed cells).1.map Cell.ty = cells.map Cell.ty := by
  induction cells with
  | nil => intro i claimed; simp [logicPass]
  | cons cell rest ih =>
    intro i claimed
    simp only [logicPass]
    split_ifs with h1 h2 <;>
      simp [List.length_cons, List.map_cons, (ih (i+1) _).1, (ih (i+1) _).2]

/-- Helper: the candidate computation never leaves world bounds when the
current position is in bounds. -/
lemma moveTarget_bounds (c : Cell) (d : Int × Int)
    (h : 0 ≤ c.X * cellSize ∧ c.X * cellSize < worldWidth ∧
         0 ≤ c.Y * cellSize ∧ c.Y * cellSize < worldHeight) :
    0 ≤ (moveTarget c d).1 * cellSize ∧ (moveTarget c d).1 * cellSize < worldWidth ∧
    0 ≤ (moveTarget c d).2 * cellSize ∧ (moveTarget c d).2 * cellSize < worldHeight := by
  simp only [moveTarget]
  split_ifs with hob
  · exact h
  · simp only [outOfBounds, Bool.or_eq_true, decide_eq_true_eq, not_or] at hob
    simp only [cellSize, worldWidth, worldHeight] at *
    omega

/-- Helper: one pass keeps every agent inside world bounds. -/
lemma logicPass_bounds (rnd : Nat → Int × Int) (cells : List Cell) :
    ∀ (i : Nat) (claimed : Finset (Int × Int)),
      (∀ c ∈ cells, 0 ≤ c.X * cellSize ∧ c.X * cellSize < worldWidth ∧
          0 ≤ c.Y * cellSize ∧ c.Y * cellSize < worldHeight) →
      ∀ c ∈ (logicPass rnd i claimed cells).1,
        0 ≤ c.X * cellSize ∧ c.X * cellSize < worldWidth ∧
        0 ≤ c.Y * cellSize ∧ c.Y * cellSize < worldHeight := by
  induction cells with
  | nil => intro i claimed _ c hc; simp [logicPass] at hc
  | cons cell rest ih =>
    intro i claimed hcells c hc
    have hcell := hcells cell (List.mem_cons_self _ _)
    have hrest : ∀ c ∈ rest, 0 ≤ c.X * cellSize ∧ c.X * cellSize < worldWidth ∧
        0 ≤ c.Y * cellSize ∧ c.Y * cellSize < worldHeight :=
      fun c hc => hcells c (List.mem_cons_of_mem _ hc)
    simp only [logicPass] at hc
    split_ifs at hc with h1 h2
    · rcases List.mem_cons.mp hc with rfl | hmem
      · exact hcell
      · exact ih (i+1) _ hrest _ hmem
    · rcases List.mem_cons.mp hc with rfl | hmem
      · exact hcell
      · exact ih (i+1) _ hrest _ hmem
    · rcases List.mem_cons.mp hc with rfl | hmem
      · simpa using moveTarget_bounds cell (rnd i) hcell
      · exact ih (i+1) _ hrest _ hmem

/-- Helper: the `newPositions` set built by one pass is the initially claimed
set plus exactly the positions of the produced cells. -/
lemma logicPass_occ (rnd : Nat → Int × Int) (cells : List Cell) :
    ∀ (i : Nat) (claimed : Finset (Int × Int)) (p : Int × Int),
      p ∈ (logicPass rnd i claimed cells).2 ↔
        p ∈ claimed ∨ ∃ c ∈ (logicPass rnd i claimed cells).1, c.X = p.1 ∧ c.Y = p.2 := by
  induction cells with
  | nil => intro i claimed p; simp [logicPass]
  | cons cell rest ih =>
    intro i claimed p
    simp only [logicPass]
    split_ifs with h1 h2
    · rw [ih (i+1) _ p]
      simp only [Finset.mem_insert, List.mem_cons]
      constructor
      · rintro (⟨rfl | hp⟩ | ⟨c, hc, hcp⟩)
        · exact Or.inr ⟨cell, Or.inl rfl, rfl, rfl⟩
        · exact Or.inl hp
        · exact Or.inr ⟨c, Or.inr hc, hcp⟩
      · rintro (hp | ⟨c, rfl | hc, hcp⟩)
        · exact Or.inl (Or.inr hp)
        · exact Or.inl (Or.inl (by obtain ⟨hx, hy⟩ := hcp; rw [hx, hy]))
        · exact Or.inr ⟨c, hc, hcp⟩
    · rw [ih (i+1) _ p]
      simp only [Finset.mem_insert, List.mem_cons]
      constructor
      · rintro (⟨rfl | hp⟩ | ⟨c, hc, hcp⟩)
        · exact Or.inr ⟨cell, Or.inl rfl, rfl, rfl⟩
        · exact Or.inl hp
        · exact Or.inr ⟨c, Or.inr hc, hcp⟩
      · rintro (hp | ⟨c, rfl | hc, hcp⟩)
        · exact Or.inl (Or.inr hp)
        · exact Or.inl (Or.inl (by obtain ⟨hx, hy⟩ := hcp; rw [hx, hy]))
        · exact Or.inr ⟨c, hc, hcp⟩
    · rw [ih (i+1) _ p]
      simp only [Finset.mem_insert, List.mem_cons]
      constructor
      · rintro (⟨rfl | hp⟩ | ⟨c, hc, hcp⟩)
        · exact Or.inr ⟨⟨(moveTarget cell (rnd i)).1, (moveTarget cell (rnd i)).2, cell.ty⟩,
            Or.inl rfl, rfl, rfl⟩
        · exact Or.inl hp
        · exact Or.inr ⟨c, Or.inr hc, hcp⟩
      · rintro (hp | ⟨c, rfl | hc, hcp⟩)
        · exact Or.inl (Or.inr hp)
        · exact Or.inl (Or.inl (by obtain ⟨hx, hy⟩ := hcp; exact Prod.ext hx.symm hy.symm))
        · exact Or.inr ⟨c, hc, hcp⟩

/-- Helper: the reference speed loop computes floor and fractional part. -/
lemma specSpeedLoop_eq (q : ℚ) (hq : 0 ≤ q) :
    specSpeedLoop q = ((⌊q⌋).toNat, q - ⌊q⌋) := by
  induction q using specSpeedLoop.induct with
  | case1 q hge ih =>
    have h0 : (0 : ℚ) ≤ q - 1 := by linarith
    rw [specSpeedLoop, dif_pos hge, ih h0]
    have hfl : ⌊q - 1⌋ = ⌊q⌋ - 1 := by
      rw [show (1 : ℚ) = ((1 : Int) : ℚ) by norm_num, Int.floor_sub_int]
    have hge1 : (1 : Int) ≤ ⌊q⌋ := by
      rwa [Int.le_floor, Int.cast_one]
    refine Prod.ext ?_ ?_
    · simp only [hfl]
      omega
    · simp only [hfl]
      push_cast
      ring
  | case2 q hlt =>
    rw [specSpeedLoop, dif_neg hlt]
    push_neg at hlt
    have h0 : ⌊q⌋ = 0 := by
      rw [Int.floor_eq_zero_iff]
      exact Set.mem_Ico.mpr ⟨hq, by linarith⟩
    simp [h0]

/-- Helper: clicking the exact center of an 800x800 viewport on the initial
state places one agent at grid cell (200, 200). -/
lemma place_center :
    placeCell 400 400 800 800 NewGame =
      { NewGame with cells := [⟨200, 200, Life⟩], occupied := {((200 : Int), (200 : Int))} } := by
  norm_num [placeCell, targetCell, screenToWorld, NewGame, qtrunc, worldWidth, worldHeight, cellSize]
  decide

/-- C1 (counterexample): the claim "after one logicUpdate no two agents occupy
the same grid cell" fails: from the distinct population (0,0), (1,0), with the
first agent sampling delta (1,0) and the second (0,0), both agents end at
(1,0) - the second falls through to the double-claim fallback branch. -/
theorem logicUpdate_duplicate_cells_example :
    (([⟨0, 0, Life⟩, ⟨1, 0, Life⟩] : List Cell).map fun c => (c.X, c.Y)).Nodup ∧
    ¬ (((logicUpdate (fun i => if i = 0 then (1, 0) else (0, 0))
        { NewGame with cells := [⟨0, 0, Life⟩, ⟨1, 0, Life⟩] }).cells.map
        fun c => (c.X, c.Y)).Nodup) := by
  decide

/-- C1 (corrected): after one logicUpdate the resulting cells list contains no
two entries with equal (X, Y), provided no agent took the double-claim
fallback branch during the pass (`cleanPass`); without that proviso the
invariant fails, see the counterexample. -/
theorem logicUpdate_nodup_of_cleanPass (rnd : Nat → Int × Int) (g : Game)
    (h : cleanPass rnd 0 ∅ g.cells = true) :
    ((logicUpdate rnd g).cells.map fun c => (c.X, c.Y)).Nodup := by
  have := (logicPass_clean rnd g.cells 0 ∅ h).1
  simpa [logicUpdate] using this

/-- C1 (witness): a concrete clean two-agent step with distinct resulting cells. -/
theorem logicUpdate_nodup_of_cleanPass_witness :
    cleanPass (fun i => if i = 0 then (1, 0) else (0, 1)) 0 ∅
        [⟨0, 0, Life⟩, ⟨1, 0, Zombie⟩] = true ∧
    (((logicUpdate (fun i => if i = 0 then (1, 0) else (0, 1))
        { NewGame with cells := [⟨0, 0, Life⟩, ⟨1, 0, Zombie⟩] }).cells.map
        fun c => (c.X, c.Y)).Nodup) :=
  ⟨by decide, logicUpdate_nodup_of_cleanPass _ _ (by decide)⟩

/-- C2 (confirmed): for every camera state, pointer position and viewport
size, the tick's zoom update followed by the focus shift of
(before - after) leaves screenToWorld at the pointer unchanged (exactly,
over ℚ). -/
theorem applyZoomAnchored_fixes_pointer (keyQ keyE : Bool)
    (scrollY mx my w h : ℚ) (g : Game) :
    screenToWorld (applyZoomAnchored keyQ keyE scrollY mx my w h g) mx my w h =
    screenToWorld g mx my w h := by
  simp only [applyZoomAnchored, screenToWorld, Prod.mk.injEq]
  constructor <;> ring

/-- C3 (confirmed): for every camera state with nonzero zoom, viewport size
and world point, screenToWorld inverts the renderer transform worldToScreen
(exactly, over ℚ). -/
theorem screenToWorld_worldToScreen (g : Game) (wx wy w h : ℚ) (hz : g.zoom ≠ 0) :
    screenToWorld g (worldToScreen g wx wy w h).1 (worldToScreen g wx wy w h).2 w h
      = (wx, wy) := by
  simp only [screenToWorld, worldToScreen, Prod.mk.injEq]
  constructor <;> field_simp

/-- C3 (witness): the inverse law at the initial camera on a concrete point. -/
theorem screenToWorld_worldToScreen_witness :
    screenToWorld NewGame (worldToScreen NewGame 123 456 800 800).1
      (worldToScreen NewGame 123 456 800 800).2 800 800 = (123, 456) :=
  screenToWorld_worldToScreen NewGame 123 456 800 800 (by norm_num [NewGame])

/-- C4 (counterexample): the claim fails when the viewport is larger than the
world: at zoom 1/4 with a 9000-pixel viewport, clampCamera pins the focus to
the half-extent 18000, not to the world center 2000, and the visible viewport
exits [0, worldWidth]. -/
theorem clampCamera_not_center_example :
    ¬ ((clampCamera { NewGame with zoom := 1/4 } 9000 9000).cameraX +
        9000 / 2 / (clampCamera { NewGame with zoom := 1/4 } 9000 9000).zoom
        ≤ (worldWidth : ℚ)) ∧
    (clampCamera { NewGame with zoom := 1/4 } 9000 9000).cameraX ≠ (worldWidth : ℚ) / 2 := by
  norm_num [clampCamera, NewGame, worldWidth]

/-- C4 (corrected): after clampCamera, in any dimension where the viewport
fits in the world (2 * half-extent ≤ worldSize) the visible viewport lies
within [0, worldSize]; in any dimension where the viewport is larger than the
world the focus is pinned to the half-extent (min and max collapse to the
min), not to the world center as the claim states. -/
theorem clampCamera_viewport_spec (g : Game) (w h : ℚ) :
    (2 * (w / 2 / g.zoom) ≤ (worldWidth : ℚ) →
      0 ≤ (clampCamera g w h).cameraX - w / 2 / g.zoom ∧
      (clampCamera g w h).cameraX + w / 2 / g.zoom ≤ (worldWidth : ℚ)) ∧
    ((worldWidth : ℚ) < 2 * (w / 2 / g.zoom) →
      (clampCamera g w h).cameraX = w / 2 / g.zoom) ∧
    (2 * (h / 2 / g.zoom) ≤ (worldHeight : ℚ) →
      0 ≤ (clampCamera g w h).cameraY - h / 2 / g.zoom ∧
      (clampCamera g w h).cameraY + h / 2 / g.zoom ≤ (worldHeight : ℚ)) ∧
    ((worldHeight : ℚ) < 2 * (h / 2 / g.zoom) →
      (clampCamera g w h).cameraY = h / 2 / g.zoom) := by
  simp only [clampCamera]
  refine ⟨?_, ?_, ?_, ?_⟩
  · intro hfit
    rw [if_neg (by linarith)]
    constructor
    · have := le_max_left (w / 2 / g.zoom) (min g.cameraX ((worldWidth : ℚ) - w / 2 / g.zoom))
      linarith
    · have h2 : max (w / 2 / g.zoom) (min g.cameraX ((worldWidth : ℚ) - w / 2 / g.zoom))
          ≤ (worldWidth : ℚ) - w / 2 / g.zoom :=
        max_le (by linarith) (min_le_right _ _)
      linarith
  · intro hbig
    rw [if_pos (by linarith)]
    exact max_eq_left (min_le_right _ _)
  · intro hfit
    rw [if_neg (by linarith)]
    constructor
    · have := le_max_left (h / 2 / g.zoom) (min g.cameraY ((worldHeight : ℚ) - h / 2 / g.zoom))
      linarith
    · have h2 : max (h / 2 / g.zoom) (min g.cameraY ((worldHeight : ℚ) - h / 2 / g.zoom))
          ≤ (worldHeight : ℚ) - h / 2 / g.zoom :=
        max_le (by linarith) (min_le_right _ _)
      linarith
  · intro hbig
    rw [if_pos (by linarith)]
    exact max_eq_left (min_le_right _ _)

/-- C4 (witness): initial camera, 800-wide viewport (fits: viewport stays in
bounds) and 10000-tall viewport (larger than the world: focus pinned to the
half-extent). -/
theorem clampCamera_viewport_spec_witness :
    (0 ≤ (clampCamera NewGame 800 10000).cameraX - 800 / 2 / NewGame.zoom ∧
      (clampCamera NewGame 800 10000).cameraX + 800 / 2 / NewGame.zoom ≤ (worldWidth : ℚ)) ∧
    (clampCamera NewGame 800 10000).cameraY = 10000 / 2 / NewGame.zoom :=
  ⟨(clampCamera_viewport_spec NewGame 800 10000).1 (by norm_num [NewGame, worldWidth]),
   (clampCamera_viewport_spec NewGame 800 10000).2.2.2 (by norm_num [NewGame, worldHeight])⟩

/-- C5 (confirmed): in every reachable state (initial seeding, then any
sequence of user placements and simulation steps) every agent's cell position
satisfies 0 ≤ x*cellSize < worldWidth and 0 ≤ y*cellSize < worldHeight. -/
theorem reachable_cells_in_bounds (g : Game) (hg : Reachable g) :
    ∀ c ∈ g.cells, 0 ≤ c.X * cellSize ∧ c.X * cellSize < worldWidth ∧
      0 ≤ c.Y * cellSize ∧ c.Y * cellSize < worldHeight := by
  induction hg with
  | init => intro c hc; simp [NewGame] at hc
  | place mx my w h hr ih =>
    intro c hc
    simp only [placeCell] at hc
    split_ifs at hc with hguard
    · rcases List.mem_append.mp hc with hmem | hmem
      · exact ih c hmem
      · simp only [List.mem_singleton] at hmem
        subst hmem
        obtain ⟨-, hx, hy, hxlt, hylt⟩ := hguard
        refine ⟨?_, hxlt, ?_, hylt⟩
        · exact mul_nonneg hx (by norm_num [cellSize])
        · exact mul_nonneg hy (by norm_num [cellSize])
    · exact ih c hc
  | step rnd hr ih =>
    intro c hc
    simp only [logicUpdate] at hc
    exact logicPass_bounds _ _ 0 ∅ ih c hc

/-- C5 (witness): the state reached by one placement is reachable and its
agent at (200, 200) is in bounds. -/
theorem reachable_cells_in_bounds_witness :
    0 ≤ (200 : Int) * cellSize ∧ (200 : Int) * cellSize < worldWidth ∧
    0 ≤ (200 : Int) * cellSize ∧ (200 : Int) * cellSize < worldHeight :=
  reachable_cells_in_bounds (placeCell 400 400 800 800 NewGame)
    (Reachable.place 400 400 800 800 Reachable.init) ⟨200, 200, Life⟩
    (by rw [place_center]; simp)

/-- C6 (counterexample): the claim fails when the shared candidate cell is the
second agent's own cell: agents at (0,0) and (1,0), deltas (1,0) and (0,0),
both target in-bounds cell (1,0); after the step both agents occupy (1,0), so
"exactly one agent occupies the candidate cell" is false. -/
theorem conflict_same_target_example :
    (((⟨0, 0, Life⟩ : Cell).X, (⟨0, 0, Life⟩ : Cell).Y) ≠
        (((⟨1, 0, Life⟩ : Cell).X, (⟨1, 0, Life⟩ : Cell).Y) : Int × Int)) ∧
    ((0 : Int) + 1, (0 : Int) + 0) = ((1 : Int), (0 : Int)) ∧
    ((1 : Int) + 0, (0 : Int) + 0) = ((1 : Int), (0 : Int)) ∧
    outOfBounds 1 0 = false ∧
    ¬ (((logicUpdate (fun i => if i = 0 then (1, 0) else (0, 0))
        { NewGame with cells := [⟨0, 0, Life⟩, ⟨1, 0, Life⟩] }).cells.map
        fun c => (c.X, c.Y)).countP
        (fun p => decide (p = ((1 : Int), (0 : Int)))) = 1) := by
  decide

/-- C6 (corrected): two agents at distinct cells whose sampled moves target
the same in-bounds candidate cell, with the added proviso that the candidate
is not the second agent's own current cell: after one step the first agent
occupies the candidate cell, the second stays at its prior cell, and exactly
one agent occupies the candidate. -/
theorem conflict_resolution_step (g : Game) (rnd : Nat → Int × Int)
    (c1 c2 : Cell) (cand : Int × Int)
    (hcells : g.cells = [c1, c2])
    (hdist : ((c1.X, c1.Y) : Int × Int) ≠ (c2.X, c2.Y))
    (h1 : (c1.X + (rnd 0).1, c1.Y + (rnd 0).2) = cand)
    (h2 : (c2.X + (rnd 1).1, c2.Y + (rnd 1).2) = cand)
    (hin : outOfBounds cand.1 cand.2 = false)
    (hc2 : cand ≠ (c2.X, c2.Y)) :
    (logicUpdate rnd g).cells = [⟨cand.1, cand.2, c1.ty⟩, c2] ∧
    ((logicUpdate rnd g).cells.countP fun c => decide ((c.X, c.Y) = cand)) = 1 := by
  have hm1 : moveTarget c1 (rnd 0) = cand := by
    simp only [moveTarget]
    rw [show c1.X + (rnd 0).1 = cand.1 from congrArg Prod.fst h1,
        show c1.Y + (rnd 0).2 = cand.2 from congrArg Prod.snd h1]
    simp [hin]
  have hm2 : moveTarget c2 (rnd 1) = cand := by
    simp only [moveTarget]
    rw [show c2.X + (rnd 1).1 = cand.1 from congrArg Prod.fst h2,
        show c2.Y + (rnd 1).2 = cand.2 from congrArg Prod.snd h2]
    simp [hin]
  have hres : (logicUpdate rnd g).cells = [⟨cand.1, cand.2, c1.ty⟩, c2] := by
    simp [logicUpdate, hcells, logicPass, hm1, hm2, hc2.symm]
  refine ⟨hres, ?_⟩
  rw [hres]
  have he : ((cand.1 : Int), (cand.2 : Int)) = cand := rfl
  simp [List.countP_cons, he, hc2.symm]

/-- C6 (witness): agents at (0,0) and (2,2) both targeting (1,1); one moves
there, the other keeps its cell. -/
theorem conflict_resolution_step_witness :
    (logicUpdate (fun i => if i = 0 then (1, 1) else (-1, -1))
        { NewGame with cells := [⟨0, 0, Life⟩, ⟨2, 2, Zombie⟩] }).cells =
      [⟨1, 1, Life⟩, ⟨2, 2, Zombie⟩] ∧
    (((logicUpdate (fun i => if i = 0 then (1, 1) else (-1, -1))
        { NewGame with cells := [⟨0, 0, Life⟩, ⟨2, 2, Zombie⟩] }).cells.countP
        fun c => decide ((c.X, c.Y) = ((1 : Int), (1 : Int)))) = 1) :=
  conflict_resolution_step { NewGame with cells := [⟨0, 0, Life⟩, ⟨2, 2, Zombie⟩] }
    (fun i => if i = 0 then (1, 1) else (-1, -1))
    ⟨0, 0, Life⟩ ⟨2, 2, Zombie⟩ (1, 1) rfl (by decide) (by decide) (by decide)
    (by decide) (by decide)

/-- C7 (confirmed): an out-of-bounds candidate is replaced by the agent's
current position (absorbing wall, no reflection or wrap); and for the
4000x4000 world with cell size 10, a single agent at (0,0) ends one step at
one of (0,0), (0,1), (1,0), (1,1) for every sampled delta in the range
-1..1 on each axis. -/
theorem wall_absorption :
    (∀ (c : Cell) (d : Int × Int), outOfBounds (c.X + d.1) (c.Y + d.2) = true →
        moveTarget c d = (c.X, c.Y)) ∧
    (∀ dx dy : Int, -1 ≤ dx → dx ≤ 1 → -1 ≤ dy → dy ≤ 1 →
        ((logicUpdate (fun _ => (dx, dy)) { NewGame with cells := [⟨0, 0, Life⟩] }).cells.map
          fun c => (c.X, c.Y)) ∈
          [[((0 : Int), (0 : Int))], [(0, 1)], [(1, 0)], [(1, 1)]]) := by
  constructor
  · intro c d h
    simp [moveTarget, h]
  · intro dx dy h1 h2 h3 h4
    interval_cases dx <;> interval_cases dy <;> decide

/-- C7 (witness): the corner agent with delta (-1,-1) stays put, and with
delta (1,1) ends at (1,1). -/
theorem wall_absorption_witness :
    moveTarget ⟨0, 0, Life⟩ (-1, -1) = ((0 : Int), (0 : Int)) ∧
    ((logicUpdate (fun _ => ((1 : Int), (1 : Int)))
        { NewGame with cells := [⟨0, 0, Life⟩] }).cells.map fun c => (c.X, c.Y)) ∈
      [[((0 : Int), (0 : Int))], [(0, 1)], [(1, 0)], [(1, 1)]] :=
  ⟨wall_absorption.1 ⟨0, 0, Life⟩ (-1, -1) (by decide),
   wall_absorption.2 1 1 (by decide) (by decide) (by decide) (by decide)⟩

/-- C8 (confirmed): for every pre-tick counter c ≥ 0 and speed s ≥ 0 the
tick's accumulator update runs exactly as many simulation steps as the
reference while-loop and leaves the same residual counter, which lies in
[0, 1). -/
theorem speedTick_refines_specSpeedLoop (c s : ℚ) (hc : 0 ≤ c) (hs : 0 ≤ s) :
    speedTick c s = specSpeedLoop (c + s) ∧
    0 ≤ (speedTick c s).2 ∧ (speedTick c s).2 < 1 := by
  have hcs : 0 ≤ c + s := by linarith
  rw [specSpeedLoop_eq (c + s) hcs]
  simp only [speedTick]
  split_ifs with h1
  · have hge1 : (1 : Int) ≤ ⌊c + s⌋ := by rwa [Int.le_floor, Int.cast_one]
    have htn : ((⌊c + s⌋.toNat : Int) : ℚ) = (⌊c + s⌋ : ℚ) := by
      rw [Int.toNat_of_nonneg (by omega)]
    refine ⟨?_, ?_, ?_⟩
    · refine Prod.ext rfl ?_
      push_cast at htn ⊢
      rw [htn]
    · have := Int.floor_le (c + s)
      push_cast at htn ⊢
      rw [htn]
      linarith
    · have := Int.lt_floor_add_one (c + s)
      push_cast at htn ⊢
      rw [htn]
      linarith
  · push_neg at h1
    have h0 : ⌊c + s⌋ = 0 := by
      rw [Int.floor_eq_zero_iff]
      exact Set.mem_Ico.mpr ⟨hcs, by linarith⟩
    refine ⟨?_, ?_, ?_⟩
    · refine Prod.ext (by simp [h0]) (by simp [h0])
    · show (0 : ℚ) ≤ c + s
      linarith
    · show c + s < 1
      linarith

/-- C8 (witness): counter 1/2 and speed 7/10 run one step and leave residual
1/5, matching the reference loop. -/
theorem speedTick_refines_specSpeedLoop_witness :
    speedTick (1/2) (7/10) = specSpeedLoop (1/2 + 7/10) ∧
    0 ≤ (speedTick (1/2) (7/10)).2 ∧ (speedTick (1/2) (7/10)).2 < 1 :=
  speedTick_refines_specSpeedLoop (1/2) (7/10) (by norm_num) (by norm_num)

/-- C9 (confirmed): one logicUpdate preserves the number of agents and the
category tag of the i-th agent (the map of tags is unchanged); only positions
change. -/
theorem logicUpdate_preserves_count_and_type (rnd : Nat → Int × Int) (g : Game) :
    (logicUpdate rnd g).cells.length = g.cells.length ∧
    (logicUpdate rnd g).cells.map Cell.ty = g.cells.map Cell.ty := by
  have := logicPass_length_ty rnd g.cells 0 ∅
  simpa [logicUpdate] using this

/-- C10 (confirmed): in every reachable state the key set of the occupied map
is exactly the set of grid positions held by at least one agent, and a mouse
placement targeting a cell holding an agent leaves the state (population and
occupied map) unchanged. -/
theorem reachable_occupied_matches_cells (g : Game) (hg : Reachable g) :
    (∀ p : Int × Int, p ∈ g.occupied ↔ ∃ c ∈ g.cells, c.X = p.1 ∧ c.Y = p.2) ∧
    (∀ mx my screenW screenH : ℚ,
      (∃ c ∈ g.cells, (c.X, c.Y) = targetCell mx my screenW screenH g) →
      placeCell mx my screenW screenH g = g) := by
  have key : ∀ p : Int × Int, p ∈ g.occupied ↔ ∃ c ∈ g.cells, c.X = p.1 ∧ c.Y = p.2 := by
    induction hg with
    | init => intro p; simp [NewGame]
    | place mx my screenW screenH hr ih =>
      intro p
      simp only [placeCell]
      split_ifs with hguard
      · simp only [Finset.mem_insert, List.mem_append, List.mem_singleton]
        rw [ih p]
        constructor
        · rintro (rfl | ⟨c, hc, hcp⟩)
          · exact ⟨_, Or.inr rfl, rfl, rfl⟩
          · exact ⟨c, Or.inl hc, hcp⟩
        · rintro ⟨c, hc | rfl, hcp⟩
          · exact Or.inr ⟨c, hc, hcp⟩
          · obtain ⟨hx, hy⟩ := hcp
            exact Or.inl (Prod.ext hx.symm hy.symm)
      · exact ih p
    | step rnd hr ih =>
      intro p
      simp only [logicUpdate]
      rw [logicPass_occ rnd _ 0 ∅ p]
      simp
  refine ⟨key, ?_⟩
  rintro mx my screenW screenH ⟨c, hc, hcp⟩
  have hocc : targetCell mx my screenW screenH g ∈ g.occupied :=
    (key _).mpr ⟨c, hc, by rw [← hcp], by rw [← hcp]⟩
  simp only [placeCell]
  rw [if_neg]
  rintro ⟨hnot, -⟩
  exact hnot hocc

/-- C10 (witness): in the state reached by one placement, the occupied map
holds exactly (200,200), and repeating the same placement is a no-op. -/
theorem reachable_occupied_matches_cells_witness :
    (((200 : Int), (200 : Int)) ∈ (placeCell 400 400 800 800 NewGame).occupied ↔
      ∃ c ∈ (placeCell 400 400 800 800 NewGame).cells, c.X = 200 ∧ c.Y = 200) ∧
    placeCell 400 400 800 800 (placeCell 400 400 800 800 NewGame) =
      placeCell 400 400 800 800 NewGame := by
  have h := reachable_occupied_matches_cells (placeCell 400 400 800 800 NewGame)
    (Reachable.place 400 400 800 800 Reachable.init)
  refine ⟨h.1 (200, 200), h.2 400 400 800 800 ⟨⟨200, 200, Life⟩, ?_, ?_⟩⟩
  · rw [place_center]; simp
  · rw [place_center]
    norm_num [targetCell, screenToWorld, NewGame, qtrunc, worldWidth, worldHeight, cellSize]
    decide

end CellAuto
